import Mathlib

/-!
Shallow embedding of `src/hash.c` (MoonBit ppx hash-mixing primitives).

The hash state is a 32-bit unsigned integer; we model `uint32_t` values as
`Nat` together with explicit reduction `% 2 ^ 32` wherever the C type forces
truncation.  Byte buffers (`uint8_t *` together with `mlsize_t len`) are
modelled as `List Nat`, a list of bytes, whose length is the `len` argument.
OCaml boxed/tagged values (`value`) carrying ints are modelled by `Nat`
(bit patterns) or `Int` (signed integers) as appropriate.

Functions named `caml_hash_mix_*` live in the OCaml runtime, not in this
repository; they are modelled from the spec (see their doc comments).
Everything else is translated directly from `src/hash.c`.
-/

namespace MoonbitHash

/-- C macro `ROTL32(x,n) = ((x) << n | (x) >> (32-n))` on `uint32_t`:
the left shift truncates to 32 bits. -/
def ROTL32 (x n : Nat) : Nat :=
  ((x <<< n) % 2 ^ 32) ||| (x >>> (32 - n))

/-- C macro `MIX(h,d)` from `src/hash.c`:
`d *= 0xcc9e2d51; d = ROTL32(d, 15); d *= 0x1b873593; h ^= d;
h = ROTL32(h, 13); h = h * 5 + 0xe6546b64;` in `uint32_t` arithmetic. -/
def MIX (h d : Nat) : Nat :=
  let d1 := (d * 0xcc9e2d51) % 2 ^ 32
  let d2 := ROTL32 d1 15
  let d3 := (d2 * 0x1b873593) % 2 ^ 32
  let h1 := h ^^^ d3
  let h2 := ROTL32 h1 13
  (h2 * 5 + 0xe6546b64) % 2 ^ 32

/-- The block loop and tail switch of `Ppx_fold_blob`.  The C code walks the
buffer with an index `i`, mixing the little-endian word `s[i] | s[i+1]<<8 |
s[i+2]<<16 | s[i+3]<<24` while `i + 4 <= len`, then assembles the trailing
`len & 3` bytes (`case 3: w = s[i+2]<<16; case 2: w |= s[i+1]<<8;
case 1: w |= s[i]; MIX`).  Here the list is the not-yet-processed part of
the buffer, so consuming four bytes corresponds to `i += 4`. -/
def Ppx_fold_blob_loop (h : Nat) (t : List Nat) : Nat :=
  match t with
  | [] => h
  | [b0] => MIX h b0
  | [b0, b1] => MIX h ((b1 <<< 8) ||| b0)
  | [b0, b1, b2] => MIX h (((b2 <<< 16) ||| (b1 <<< 8)) ||| b0)
  | b0 :: b1 :: b2 :: b3 :: rest =>
      Ppx_fold_blob_loop (MIX h (b0 ||| (b1 <<< 8) ||| (b2 <<< 16) ||| (b3 <<< 24))) rest
termination_by t.length

/-- `Ppx_fold_blob(uint32_t h, mlsize_t len, uint8_t *s)` from `src/hash.c`:
block loop, tail switch, then `h ^= (uint32_t) len`.  The byte buffer of
exactly `len` bytes is the list `s`; `len` is `s.length`. -/
def Ppx_fold_blob (h : Nat) (s : List Nat) : Nat :=
  Ppx_fold_blob_loop (h % 2 ^ 32) s ^^^ (s.length % 2 ^ 32)

/-- C macro `FINAL_MIX(h)` from `src/hash.c` (also the body of
`FINAL_MIX_AND_RETURN` before the 30-bit mask), in `uint32_t` arithmetic. -/
def FINAL_MIX (h : Nat) : Nat :=
  let h1 := h ^^^ (h >>> 16)
  let h2 := (h1 * 0x85ebca6b) % 2 ^ 32
  let h3 := h2 ^^^ (h2 >>> 13)
  let h4 := (h3 * 0xc2b2ae35) % 2 ^ 32
  h4 ^^^ (h4 >>> 16)

/-- `Ppx_get_hash_value(value st)` from `src/hash.c`:
`uint32_t h = Int_val(st); FINAL_MIX(h); return Val_int(h & 0x3FFFFFFFU);` -/
def Ppx_get_hash_value (st : Nat) : Nat :=
  FINAL_MIX (st % 2 ^ 32) &&& 0x3FFFFFFF

/-- Modelled from the spec: `caml_hash_mix_uint32` is OCaml-runtime code not
under `src/`.  Per the spec (section 4.1), a 32-bit integer's raw 32-bit bit
pattern is mixed into the accumulator using the single-word block-mixer step,
i.e. one `MIX` of the word.  Both parameters are `uint32_t`. -/
def caml_hash_mix_uint32 (h d : Nat) : Nat :=
  MIX (h % 2 ^ 32) (d % 2 ^ 32)

/-- Modelled from the spec: `caml_hash_mix_intnat` is OCaml-runtime code not
under `src/`.  Per the spec (section 4.1), on a 64-bit platform a
native-width integer decomposes into two little-endian 32-bit words and both
are mixed sequentially through the block-mixer step, low word first.  The
signed argument is taken by its 64-bit two's-complement bit pattern. -/
def caml_hash_mix_intnat (h : Nat) (v : Int) : Nat :=
  let d := (v % (2 ^ 64 : Int)).toNat
  MIX (MIX (h % 2 ^ 32) (d % 2 ^ 32)) (d / 2 ^ 32)

/-- Modelled from the spec: `caml_hash_mix_double` is OCaml-runtime code not
under `src/`.  Per the spec (section 4.1), a 64-bit double's 8 raw IEEE-754
bytes are mixed as two little-endian 32-bit words via the block-mixer step,
low word first.  The double is represented here by its 64-bit bit pattern. -/
def caml_hash_mix_double (h d : Nat) : Nat :=
  let d64 := d % 2 ^ 64
  MIX (MIX (h % 2 ^ 32) (d64 % 2 ^ 32)) (d64 / 2 ^ 32)

/-- Modelled from the spec: `caml_hash_mix_string` is OCaml-runtime code not
under `src/`.  Per the spec (section 4.1/4.3) the byte-sequence fold is the
block/byte mixer applied to the string's bytes; the comment in `src/hash.c`
states that `Ppx_fold_blob` is a version of `caml_hash_mix_string` adapted
to arbitrary char arrays. -/
def caml_hash_mix_string (h : Nat) (s : List Nat) : Nat :=
  Ppx_fold_blob h s

/-- `Ppx_fold_int32(value st, value i)` from `src/hash.c`:
`Val_long(caml_hash_mix_uint32(Long_val(st), Int32_val(i)))`. -/
def Ppx_fold_int32 (st i : Nat) : Nat :=
  caml_hash_mix_uint32 st i

/-- `Ppx_fold_nativeint(value st, value i)` from `src/hash.c`:
`Val_long(caml_hash_mix_intnat(Long_val(st), Nativeint_val(i)))`. -/
def Ppx_fold_nativeint (st : Nat) (i : Int) : Nat :=
  caml_hash_mix_intnat st i

/-- `Ppx_fold_int(value st, value i)` from `src/hash.c`:
`Val_long(caml_hash_mix_intnat(Long_val(st), Long_val(i)))`. -/
def Ppx_fold_int (st : Nat) (i : Int) : Nat :=
  caml_hash_mix_intnat st i

/-- `Ppx_fold_float(value st, value i)` from `src/hash.c`:
`Val_long(caml_hash_mix_double(Long_val(st), Double_val(i)))`; the double
argument is carried as its 64-bit bit pattern. -/
def Ppx_fold_float (st d : Nat) : Nat :=
  caml_hash_mix_double st d

/-- `Ppx_fold_string(value st, value v_str)` from `src/hash.c`:
`h = Ppx_fold_blob(h, caml_string_length(v_str), String_val(v_str))`. -/
def Ppx_fold_string (st : Nat) (s : List Nat) : Nat :=
  Ppx_fold_blob st s

/-- `Ppx_hash_string(value string)` from `src/hash.c`:
`h = caml_hash_mix_string(0, string); FINAL_MIX_AND_RETURN(h)`. -/
def Ppx_hash_string (s : List Nat) : Nat :=
  FINAL_MIX (caml_hash_mix_string 0 s) &&& 0x3FFFFFFF

/-- `Ppx_hash_double(value d)` from `src/hash.c`:
`h = caml_hash_mix_double(0, Double_val(d)); FINAL_MIX_AND_RETURN(h)`. -/
def Ppx_hash_double (d : Nat) : Nat :=
  FINAL_MIX (caml_hash_mix_double 0 d) &&& 0x3FFFFFFF

/-- Fuel-indexed variant of the block loop, used to state termination:
each block iteration consumes one unit of fuel and running out of fuel
yields `none`. -/
def Ppx_fold_blob_loop_fuel : Nat → Nat → List Nat → Option Nat
  | 0, _, _ => none
  | fuel + 1, h, t =>
    match t with
    | [] => some h
    | [b0] => some (MIX h b0)
    | [b0, b1] => some (MIX h ((b1 <<< 8) ||| b0))
    | [b0, b1, b2] => some (MIX h (((b2 <<< 16) ||| (b1 <<< 8)) ||| b0))
    | b0 :: b1 :: b2 :: b3 :: rest =>
        Ppx_fold_blob_loop_fuel fuel
          (MIX h (b0 ||| (b1 <<< 8) ||| (b2 <<< 16) ||| (b3 <<< 24))) rest

/-- Claim-side word extraction, following the spec's words: the 4-byte
little-endian block starting at index `i` of the byte sequence. -/
def spec_word_at (s : List Nat) (i : Nat) : Nat :=
  s.getD i 0 ||| (s.getD (i + 1) 0 <<< 8) ||| (s.getD (i + 2) 0 <<< 16) |||
    (s.getD (i + 3) 0 <<< 24)

/-- Claim-side trailing word, following the spec's words: the trailing bytes
starting at index `i` assembled into one little-endian partial word, missing
high bytes zero. -/
def spec_tail_word (s : List Nat) (i : Nat) : Nat :=
  s.getD i 0 ||| (s.getD (i + 1) 0 <<< 8) ||| (s.getD (i + 2) 0 <<< 16)

/-- Claim-side description of the block/byte mixer, following the spec's
words: mix `len / 4` little-endian 4-byte words in order, then, if and only
if `len mod 4` is nonzero, run exactly one more mixing step on the trailing
partial word, and finally xor the low 32 bits of the length into the
state. -/
def spec_fold_bytes (h : Nat) (s : List Nat) : Nat :=
  let len := s.length
  let hb := (List.range (len / 4)).foldl (fun a k => MIX a (spec_word_at s (4 * k)))
    (h % 2 ^ 32)
  let ht := if len % 4 = 0 then hb else MIX hb (spec_tail_word s (len / 4 * 4))
  ht ^^^ (len % 2 ^ 32)

/-- Claim-side description of finalization, following the spec's words:
the avalanche applied exactly once in unsigned 32-bit wrapping arithmetic
(right shift of a `uint32_t` is division by a power of two), keeping the
low 30 bits of the result. -/
def spec_finalize (st : Nat) : Nat :=
  let h := st % 2 ^ 32
  let h1 := h ^^^ (h / 2 ^ 16)
  let h2 := (h1 * 0x85ebca6b) % 2 ^ 32
  let h3 := h2 ^^^ (h2 / 2 ^ 13)
  let h4 := (h3 * 0xc2b2ae35) % 2 ^ 32
  (h4 ^^^ (h4 / 2 ^ 16)) % 2 ^ 30

theorem MIX_lt (h d : Nat) : MIX h d < 2 ^ 32 :=
  Nat.mod_lt _ (by norm_num)

theorem ROTL32_lt (x n : Nat) (hx : x < 2 ^ 32) : ROTL32 x n < 2 ^ 32 := by
  unfold ROTL32
  refine Nat.or_lt_two_pow (Nat.mod_lt _ (by norm_num)) ?_
  rw [Nat.shiftRight_eq_div_pow]
  exact Nat.lt_of_le_of_lt (Nat.div_le_self _ _) hx

theorem fold_blob_loop_lt_aux :
    ∀ n : Nat, ∀ t : List Nat, t.length = n → ∀ h : Nat, h < 2 ^ 32 →
      Ppx_fold_blob_loop h t < 2 ^ 32 := by
  intro n
  induction n using Nat.strong_induction_on with
  | _ n ih =>
    intro t ht h hh
    rcases t with _ | ⟨b0, _ | ⟨b1, _ | ⟨b2, _ | ⟨b3, rest⟩⟩⟩⟩
    · rw [Ppx_fold_blob_loop]; exact hh
    · rw [Ppx_fold_blob_loop]; exact MIX_lt _ _
    · rw [Ppx_fold_blob_loop]; exact MIX_lt _ _
    · rw [Ppx_fold_blob_loop]; exact MIX_lt _ _
    · simp only [List.length_cons] at ht
      rw [Ppx_fold_blob_loop]
      exact ih rest.length (by omega) rest rfl _ (MIX_lt _ _)

theorem Ppx_fold_blob_loop_lt (h : Nat) (t : List Nat) (hh : h < 2 ^ 32) :
    Ppx_fold_blob_loop h t < 2 ^ 32 :=
  fold_blob_loop_lt_aux t.length t rfl h hh

theorem Ppx_fold_blob_lt (h : Nat) (s : List Nat) : Ppx_fold_blob h s < 2 ^ 32 :=
  Nat.xor_lt_two_pow
    (Ppx_fold_blob_loop_lt _ _ (Nat.mod_lt _ (by norm_num)))
    (Nat.mod_lt _ (by norm_num))

theorem caml_hash_mix_double_lt (h d : Nat) : caml_hash_mix_double h d < 2 ^ 32 :=
  MIX_lt _ _

/-- C2: for every accumulator value, `Ppx_get_hash_value` applies the avalanche
sequence `h ^= h >> 16; h *= 0x85ebca6b; h ^= h >> 13; h *= 0xc2b2ae35;
h ^= h >> 16` exactly once in unsigned 32-bit wrapping arithmetic and returns
the low 30 bits `h & 0x3FFFFFFF`. -/
theorem finalize_matches_spec (st : Nat) : Ppx_get_hash_value st = spec_finalize st := by
  simp only [Ppx_get_hash_value, spec_finalize, FINAL_MIX, Nat.shiftRight_eq_div_pow]
  rw [show (0x3FFFFFFF : Nat) = 2 ^ 30 - 1 by norm_num, Nat.and_pow_two_sub_one_eq_mod]

/-- C4: for every accumulator input below `2 ^ 32`, finalization returns a
value in `[0, 2 ^ 30 - 1]`: the upper two bits of the 32-bit output word are
always zero. -/
theorem finalize_bounded (st : Nat) (_hst : st < 2 ^ 32) :
    Ppx_get_hash_value st < 2 ^ 30 :=
  Nat.and_lt_two_pow _ (by norm_num)

theorem finalize_bounded_witness : Ppx_get_hash_value 4294967295 < 2 ^ 30 :=
  finalize_bounded 4294967295 (by norm_num)

/-- C3: the single-call wrappers agree with fold-then-finalize from a zero
accumulator: `Ppx_hash_string` equals `Ppx_get_hash_value` after
`Ppx_fold_string` from state 0, and `Ppx_hash_double` equals
`Ppx_get_hash_value` after `Ppx_fold_float` from state 0. -/
theorem direct_hash_refines_fold_then_finalize :
    (∀ s : List Nat, Ppx_hash_string s = Ppx_get_hash_value (Ppx_fold_string 0 s)) ∧
    (∀ d : Nat, Ppx_hash_double d = Ppx_get_hash_value (Ppx_fold_float 0 d)) := by
  constructor
  · intro s
    show FINAL_MIX (Ppx_fold_blob 0 s) &&& 0x3FFFFFFF
      = FINAL_MIX (Ppx_fold_blob 0 s % 2 ^ 32) &&& 0x3FFFFFFF
    rw [Nat.mod_eq_of_lt (Ppx_fold_blob_lt 0 s)]
  · intro d
    show FINAL_MIX (caml_hash_mix_double 0 d) &&& 0x3FFFFFFF
      = FINAL_MIX (caml_hash_mix_double 0 d % 2 ^ 32) &&& 0x3FFFFFFF
    rw [Nat.mod_eq_of_lt (caml_hash_mix_double_lt 0 d)]

/-- C6: folding a zero-length byte sequence leaves the accumulator unchanged:
no block step and no tail step run, and the final exclusive-or contributes
the length 0, a value-wise no-op. -/
theorem fold_blob_nil (h : Nat) (hh : h < 2 ^ 32) : Ppx_fold_blob h [] = h := by
  rw [Ppx_fold_blob, Ppx_fold_blob_loop]
  simp only [List.length_nil, Nat.zero_mod, Nat.xor_zero]
  exact Nat.mod_eq_of_lt hh

theorem fold_blob_nil_witness : Ppx_fold_blob 123456 [] = 123456 :=
  fold_blob_nil 123456 (by norm_num)

/-- C7: the default-width integer fold returns exactly the same accumulator as
the native-width integer fold on the same state and the same integer value:
both call `caml_hash_mix_intnat` with identical arguments. -/
theorem fold_int_eq_fold_nativeint (st : Nat) (v : Int) :
    Ppx_fold_int st v = Ppx_fold_nativeint st v := rfl

theorem fuel_loop_eq_aux :
    ∀ fuel : Nat, ∀ t : List Nat, ∀ h : Nat, t.length < 4 * fuel →
      Ppx_fold_blob_loop_fuel fuel h t = some (Ppx_fold_blob_loop h t) := by
  intro fuel
  induction fuel with
  | zero => intro t h ht; exact absurd ht (by omega)
  | succ f ih =>
    intro t h ht
    rcases t with _ | ⟨b0, _ | ⟨b1, _ | ⟨b2, _ | ⟨b3, rest⟩⟩⟩⟩
    · rw [Ppx_fold_blob_loop]; rfl
    · rw [Ppx_fold_blob_loop]; rfl
    · rw [Ppx_fold_blob_loop]; rfl
    · rw [Ppx_fold_blob_loop]; rfl
    · simp only [List.length_cons] at ht
      rw [Ppx_fold_blob_loop]
      show Ppx_fold_blob_loop_fuel f
        (MIX h (b0 ||| (b1 <<< 8) ||| (b2 <<< 16) ||| (b3 <<< 24))) rest = _
      exact ih rest _ (by omega)

/-- C9: the block/byte mixer terminates on every input in a bounded number of
steps: `len / 4 + 1` units of fuel always suffice for the fuel-indexed loop
to return `some` result, equal to the loop's value, for any byte list and
any state; no error path is reachable. -/
theorem fold_blob_loop_terminates (h : Nat) (t : List Nat) :
    Ppx_fold_blob_loop_fuel (t.length / 4 + 1) h t = some (Ppx_fold_blob_loop h t) :=
  fuel_loop_eq_aux (t.length / 4 + 1) t h (by omega)

theorem or_mul_eq_add (a b i : Nat) (ha : a < 2 ^ i) :
    a ||| b * 2 ^ i = a + b * 2 ^ i := by
  calc a ||| b * 2 ^ i = 2 ^ i * b ||| a := by rw [Nat.or_comm, Nat.mul_comm]
    _ = 2 ^ i * b + a := (Nat.mul_add_lt_is_or ha b).symm
    _ = a + b * 2 ^ i := by rw [Nat.add_comm, Nat.mul_comm]

theorem bytes_reconstruct (v : Nat) :
    v % 2 ^ 8 ||| (v / 2 ^ 8 % 2 ^ 8) <<< 8 ||| (v / 2 ^ 16 % 2 ^ 8) <<< 16 |||
      (v / 2 ^ 24) <<< 24 = v := by
  have ha : v % 2 ^ 8 < 2 ^ 8 := Nat.mod_lt _ (by norm_num)
  have hb : v / 2 ^ 8 % 2 ^ 8 < 2 ^ 8 := Nat.mod_lt _ (by norm_num)
  have hc : v / 2 ^ 16 % 2 ^ 8 < 2 ^ 8 := Nat.mod_lt _ (by norm_num)
  rw [Nat.shiftLeft_eq, Nat.shiftLeft_eq, Nat.shiftLeft_eq]
  rw [or_mul_eq_add _ _ 8 ha]
  rw [or_mul_eq_add _ _ 16 (by omega)]
  rw [or_mul_eq_add _ _ 24 (by omega)]
  omega

/-- C5: `Ppx_fold_int32` mixes the value's raw 32-bit bit pattern into the
accumulator with the single-word block-mixer step: it equals running the
block loop on the single 4-byte little-endian block of the value. -/
theorem fold_int32_is_single_block (h v : Nat) (hv : v < 2 ^ 32) :
    Ppx_fold_int32 h v =
      Ppx_fold_blob_loop (h % 2 ^ 32)
        [v % 2 ^ 8, v / 2 ^ 8 % 2 ^ 8, v / 2 ^ 16 % 2 ^ 8, v / 2 ^ 24] := by
  rw [Ppx_fold_blob_loop, Ppx_fold_blob_loop]
  rw [bytes_reconstruct v]
  show MIX (h % 2 ^ 32) (v % 2 ^ 32) = MIX (h % 2 ^ 32) v
  rw [Nat.mod_eq_of_lt hv]

theorem fold_int32_is_single_block_witness :
    Ppx_fold_int32 3 305419896 =
      Ppx_fold_blob_loop (3 % 2 ^ 32)
        [305419896 % 2 ^ 8, 305419896 / 2 ^ 8 % 2 ^ 8, 305419896 / 2 ^ 16 % 2 ^ 8,
          305419896 / 2 ^ 24] :=
  fold_int32_is_single_block 3 305419896 (by norm_num)

theorem getD_cons_four (a0 a1 a2 a3 : Nat) (l : List Nat) (i d : Nat) :
    (a0 :: a1 :: a2 :: a3 :: l).getD (i + 4) d = l.getD i d := by
  show (a0 :: a1 :: a2 :: a3 :: l).getD (i + 1 + 1 + 1 + 1) d = l.getD i d
  simp only [List.getD_cons_succ]

theorem spec_word_at_cons4 (b0 b1 b2 b3 : Nat) (l : List Nat) (i : Nat) :
    spec_word_at (b0 :: b1 :: b2 :: b3 :: l) (i + 4) = spec_word_at l i := by
  unfold spec_word_at
  rw [show i + 4 + 1 = i + 1 + 4 by omega, show i + 4 + 2 = i + 2 + 4 by omega,
    show i + 4 + 3 = i + 3 + 4 by omega]
  rw [getD_cons_four, getD_cons_four, getD_cons_four, getD_cons_four]

theorem spec_tail_word_cons4 (b0 b1 b2 b3 : Nat) (l : List Nat) (i : Nat) :
    spec_tail_word (b0 :: b1 :: b2 :: b3 :: l) (i + 4) = spec_tail_word l i := by
  unfold spec_tail_word
  rw [show i + 4 + 1 = i + 1 + 4 by omega, show i + 4 + 2 = i + 2 + 4 by omega]
  rw [getD_cons_four, getD_cons_four, getD_cons_four]

theorem spec_word_at_zero (b0 b1 b2 b3 : Nat) (l : List Nat) :
    spec_word_at (b0 :: b1 :: b2 :: b3 :: l) 0
      = b0 ||| (b1 <<< 8) ||| (b2 <<< 16) ||| (b3 <<< 24) := rfl

theorem lor_rev3 (x y z : Nat) : (z ||| y) ||| x = (x ||| y) ||| z := by
  rw [Nat.or_assoc, Nat.or_comm, Nat.or_comm y x]

theorem loop_eq_spec_aux :
    ∀ n : Nat, ∀ t : List Nat, t.length = n → ∀ h : Nat,
      Ppx_fold_blob_loop h t =
        (if n % 4 = 0 then
          (List.range (n / 4)).foldl (fun a k => MIX a (spec_word_at t (4 * k))) h
        else
          MIX ((List.range (n / 4)).foldl (fun a k => MIX a (spec_word_at t (4 * k))) h)
            (spec_tail_word t (n / 4 * 4))) := by
  intro n
  induction n using Nat.strong_induction_on with
  | _ n ih =>
    intro t ht h
    rcases t with _ | ⟨b0, _ | ⟨b1, _ | ⟨b2, _ | ⟨b3, rest⟩⟩⟩⟩
    · simp only [List.length_nil] at ht
      have hn : n = 0 := by omega
      subst hn
      rw [Ppx_fold_blob_loop]
      rw [if_pos (by decide : (0 : Nat) % 4 = 0)]
      rw [show (0 : Nat) / 4 = 0 from rfl, List.range_zero, List.foldl_nil]
    · simp only [List.length_cons, List.length_nil] at ht
      have hn : n = 1 := by omega
      subst hn
      rw [Ppx_fold_blob_loop]
      rw [if_neg (by decide : ¬ ((1 : Nat) % 4 = 0))]
      rw [show (1 : Nat) / 4 = 0 from rfl, show (0 : Nat) * 4 = 0 from rfl]
      rw [List.range_zero, List.foldl_nil]
      have e1 : spec_tail_word [b0] 0 = b0 ||| (0 <<< 8) ||| (0 <<< 16) := rfl
      rw [e1]
      simp only [Nat.zero_shiftLeft, Nat.or_zero]
    · simp only [List.length_cons, List.length_nil] at ht
      have hn : n = 2 := by omega
      subst hn
      rw [Ppx_fold_blob_loop]
      rw [if_neg (by decide : ¬ ((2 : Nat) % 4 = 0))]
      rw [show (2 : Nat) / 4 = 0 from rfl, show (0 : Nat) * 4 = 0 from rfl]
      rw [List.range_zero, List.foldl_nil]
      have e1 : spec_tail_word [b0, b1] 0 = b0 ||| (b1 <<< 8) ||| (0 <<< 16) := rfl
      rw [e1]
      simp only [Nat.zero_shiftLeft, Nat.or_zero]
      rw [Nat.or_comm b0]
    · simp only [List.length_cons, List.length_nil] at ht
      have hn : n = 3 := by omega
      subst hn
      rw [Ppx_fold_blob_loop]
      rw [if_neg (by decide : ¬ ((3 : Nat) % 4 = 0))]
      rw [show (3 : Nat) / 4 = 0 from rfl, show (0 : Nat) * 4 = 0 from rfl]
      rw [List.range_zero, List.foldl_nil]
      have e1 : spec_tail_word [b0, b1, b2] 0 = b0 ||| (b1 <<< 8) ||| (b2 <<< 16) := rfl
      rw [e1, lor_rev3]
    · simp only [List.length_cons] at ht
      rw [Ppx_fold_blob_loop]
      rw [ih rest.length (by omega) rest rfl
        (MIX h (b0 ||| (b1 <<< 8) ||| (b2 <<< 16) ||| (b3 <<< 24)))]
      have hmod : n % 4 = rest.length % 4 := by omega
      have hdiv : n / 4 = rest.length / 4 + 1 := by omega
      have htail : n / 4 * 4 = rest.length / 4 * 4 + 4 := by omega
      rw [hmod, htail, hdiv, spec_tail_word_cons4, List.range_succ_eq_map,
        List.foldl_cons, List.foldl_map]
      simp only [Nat.mul_zero, spec_word_at_zero, Nat.succ_eq_add_one, Nat.mul_add,
        Nat.mul_one, spec_word_at_cons4]

/-- C1: for every initial state and every byte sequence, the block/byte mixer
computes exactly the spec's description: little-endian 4-byte words are mixed
by the block step while at least 4 bytes remain, the trailing 1-3 bytes are
assembled little-endian with missing high bytes zero and mixed by exactly one
more step if and only if the length is not a multiple of 4, and finally the
low 32 bits of the length are xored into the state. -/
theorem fold_blob_matches_spec (h : Nat) (s : List Nat) :
    Ppx_fold_blob h s = spec_fold_bytes h s := by
  simp only [Ppx_fold_blob, spec_fold_bytes]
  rw [loop_eq_spec_aux s.length s rfl (h % 2 ^ 32)]

/-- C8: folding is order-sensitive: there are values `a ≠ b` such that folding
`a` then `b` from accumulator 0 and finalizing differs from folding `b` then
`a` from accumulator 0 and finalizing. -/
theorem fold_order_sensitive :
    ∃ a b : Nat, a ≠ b ∧
      Ppx_get_hash_value (Ppx_fold_int32 (Ppx_fold_int32 0 a) b) ≠
        Ppx_get_hash_value (Ppx_fold_int32 (Ppx_fold_int32 0 b) a) :=
  ⟨1, 2, by decide, by decide⟩

theorem mul_add_cancel_lt (K r1 q1 r2 q2 : Nat) (h1 : q1 < K) (h2 : q2 < K)
    (he : K * r1 + q1 = K * r2 + q2) : r1 = r2 ∧ q1 = q2 := by
  have hK : 0 < K := Nat.lt_of_le_of_lt (Nat.zero_le q1) h1
  have e1 : (K * r1 + q1) / K = r1 := by
    rw [Nat.mul_add_div hK, Nat.div_eq_of_lt h1, Nat.add_zero]
  have e2 : (K * r2 + q2) / K = r2 := by
    rw [Nat.mul_add_div hK, Nat.div_eq_of_lt h2, Nat.add_zero]
  have e3 : (K * r1 + q1) % K = q1 := by rw [Nat.mul_add_mod, Nat.mod_eq_of_lt h1]
  have e4 : (K * r2 + q2) % K = q2 := by rw [Nat.mul_add_mod, Nat.mod_eq_of_lt h2]
  constructor
  · rw [← e1, ← e2, he]
  · rw [← e3, ← e4, he]

theorem rotl32_arith (x n : Nat) (hn : n ≤ 32) (hx : x < 2 ^ 32) :
    ROTL32 x n = 2 ^ n * (x % 2 ^ (32 - n)) + x / 2 ^ (32 - n) := by
  unfold ROTL32
  rw [Nat.shiftLeft_eq, Nat.shiftRight_eq_div_pow]
  have hsplit : (2 : Nat) ^ 32 = 2 ^ n * 2 ^ (32 - n) := by
    rw [← pow_add]; congr 1; omega
  have h1 : x * 2 ^ n % 2 ^ 32 = 2 ^ n * (x % 2 ^ (32 - n)) := by
    rw [Nat.mul_comm x, hsplit, Nat.mul_mod_mul_left]
  have hq : x / 2 ^ (32 - n) < 2 ^ n := by
    apply Nat.div_lt_of_lt_mul
    rw [Nat.mul_comm, ← hsplit]; exact hx
  rw [h1]
  exact (Nat.mul_add_lt_is_or hq _).symm

theorem rotl32_inj (n a b : Nat) (hn : n ≤ 32) (ha : a < 2 ^ 32) (hb : b < 2 ^ 32)
    (he : ROTL32 a n = ROTL32 b n) : a = b := by
  rw [rotl32_arith a n hn ha, rotl32_arith b n hn hb] at he
  have hsplit : (2 : Nat) ^ 32 = 2 ^ (32 - n) * 2 ^ n := by
    rw [← pow_add]; congr 1; omega
  have hqa : a / 2 ^ (32 - n) < 2 ^ n := by
    apply Nat.div_lt_of_lt_mul; rw [← hsplit]; exact ha
  have hqb : b / 2 ^ (32 - n) < 2 ^ n := by
    apply Nat.div_lt_of_lt_mul; rw [← hsplit]; exact hb
  obtain ⟨hr, hq⟩ := mul_add_cancel_lt (2 ^ n) _ _ _ _ hqa hqb he
  calc a = 2 ^ (32 - n) * (a / 2 ^ (32 - n)) + a % 2 ^ (32 - n) :=
        (Nat.div_add_mod a _).symm
    _ = 2 ^ (32 - n) * (b / 2 ^ (32 - n)) + b % 2 ^ (32 - n) := by rw [hq, hr]
    _ = b := Nat.div_add_mod b _

theorem mulK_inj (k a b : Nat) (hk : Nat.gcd (2 ^ 32) k = 1) (ha : a < 2 ^ 32)
    (hb : b < 2 ^ 32) (he : a * k % 2 ^ 32 = b * k % 2 ^ 32) : a = b := by
  have h2 : a ≡ b [MOD 2 ^ 32] := Nat.ModEq.cancel_right_of_coprime hk he
  have h3 : a % 2 ^ 32 = b % 2 ^ 32 := h2
  rwa [Nat.mod_eq_of_lt ha, Nat.mod_eq_of_lt hb] at h3

theorem affine5_inj (a b : Nat) (ha : a < 2 ^ 32) (hb : b < 2 ^ 32)
    (he : (a * 5 + 0xe6546b64) % 2 ^ 32 = (b * 5 + 0xe6546b64) % 2 ^ 32) : a = b := by
  have h1 : a * 5 ≡ b * 5 [MOD 2 ^ 32] := Nat.ModEq.add_right_cancel' 0xe6546b64 he
  exact mulK_inj 5 a b (by norm_num) ha hb h1

theorem MIX_eq (h d : Nat) :
    MIX h d
      = (ROTL32 (h ^^^ (ROTL32 (d * 0xcc9e2d51 % 2 ^ 32) 15 * 0x1b873593 % 2 ^ 32)) 13
          * 5 + 0xe6546b64) % 2 ^ 32 := rfl

/-- C10: one block-mixer step is injective in the mixed word for a fixed
32-bit accumulator, and injective in the accumulator for a fixed 32-bit word:
every sub-step (multiplication by an odd constant, rotation, xor, and the
affine map) is a bijection on 32-bit words, so a single fold of distinct
values from the same state never collides before finalization. -/
theorem mix_step_injective :
    (∀ h d1 d2 : Nat, h < 2 ^ 32 → d1 < 2 ^ 32 → d2 < 2 ^ 32 →
      MIX h d1 = MIX h d2 → d1 = d2) ∧
    (∀ d h1 h2 : Nat, d < 2 ^ 32 → h1 < 2 ^ 32 → h2 < 2 ^ 32 →
      MIX h1 d = MIX h2 d → h1 = h2) := by
  constructor
  · intro h d1 d2 hh hd1 hd2 he
    rw [MIX_eq, MIX_eq] at he
    have hF1 : ROTL32 (d1 * 0xcc9e2d51 % 2 ^ 32) 15 * 0x1b873593 % 2 ^ 32 < 2 ^ 32 :=
      Nat.mod_lt _ (by norm_num)
    have hF2 : ROTL32 (d2 * 0xcc9e2d51 % 2 ^ 32) 15 * 0x1b873593 % 2 ^ 32 < 2 ^ 32 :=
      Nat.mod_lt _ (by norm_num)
    have hX1 := Nat.xor_lt_two_pow hh hF1
    have hX2 := Nat.xor_lt_two_pow hh hF2
    have e1 := affine5_inj _ _ (ROTL32_lt _ _ hX1) (ROTL32_lt _ _ hX2) he
    have e2 := rotl32_inj 13 _ _ (by norm_num) hX1 hX2 e1
    have e3 : ROTL32 (d1 * 0xcc9e2d51 % 2 ^ 32) 15 * 0x1b873593 % 2 ^ 32
        = ROTL32 (d2 * 0xcc9e2d51 % 2 ^ 32) 15 * 0x1b873593 % 2 ^ 32 :=
      Nat.xor_right_injective e2
    have e4 := mulK_inj 0x1b873593 _ _ (by norm_num)
      (ROTL32_lt _ _ (Nat.mod_lt _ (by norm_num)))
      (ROTL32_lt _ _ (Nat.mod_lt _ (by norm_num))) e3
    have e5 := rotl32_inj 15 _ _ (by norm_num)
      (Nat.mod_lt _ (by norm_num)) (Nat.mod_lt _ (by norm_num)) e4
    exact mulK_inj 0xcc9e2d51 d1 d2 (by norm_num) hd1 hd2 e5
  · intro d h1 h2 _hd hh1 hh2 he
    rw [MIX_eq, MIX_eq] at he
    have hF : ROTL32 (d * 0xcc9e2d51 % 2 ^ 32) 15 * 0x1b873593 % 2 ^ 32 < 2 ^ 32 :=
      Nat.mod_lt _ (by norm_num)
    have hX1 := Nat.xor_lt_two_pow hh1 hF
    have hX2 := Nat.xor_lt_two_pow hh2 hF
    have e1 := affine5_inj _ _ (ROTL32_lt _ _ hX1) (ROTL32_lt _ _ hX2) he
    have e2 := rotl32_inj 13 _ _ (by norm_num) hX1 hX2 e1
    exact Nat.xor_left_injective e2

theorem mix_step_injective_witness : (6 : Nat) = 2 + 4 ∧ (9 : Nat) = 4 + 5 :=
  ⟨mix_step_injective.1 0 6 (2 + 4) (by norm_num) (by norm_num) (by norm_num) (by decide),
   mix_step_injective.2 3 9 (4 + 5) (by norm_num) (by norm_num) (by norm_num) (by decide)⟩

end MoonbitHash
